import Mathlib

/-!
A verification development for the Grad-CAM attribution / heatmap subsystem of
`backend/utils.py` (functions `_find_last_conv_layer`, `_compute_gradcam`,
`generate_gradcam_heatmap`, `colorize_heatmap`, `overlay_heatmap_on_image`).

Modelling conventions:
* Tensor values are exact rationals (`ℚ`); the Python code computes in float32,
  and every property checked here is about exact arithmetic identities,
  orderings and shapes that float and exact arithmetic agree on.
* A tensor of shape `[C, H, W]` (the batch dimension of 1 dropped) is a
  `List (List (List ℚ))`: a list of channels, each channel a list of rows.
* The classifier's forward/backward pass (PyTorch autograd) is an external
  collaborator; it is modelled as an abstract `capture` function on the
  classifier that either yields the hook-captured activation and gradient
  tensors of the target layer or signals that an exception was raised
  somewhere in the instrumented region (lines 37-46 of `utils.py`).
* `uint8` quantization `(x * 255).astype(np.uint8)` is `Int.toNat ⌊x * 255⌋`,
  exact for the values in `[0, 1]` that actually reach it.
-/

/-! ## Grids and elementary reductions -/

/-- A 2-D array of rationals (one channel, or the class-activation map). -/
abbrev Grid : Type := List (List ℚ)

/-- A 3-D tensor `[C, H, W]` (batch dimension of 1 dropped). -/
abbrev Tensor3 : Type := List Grid

/-- A quantized single-channel 8-bit map, the artifact `_compute_gradcam`
returns (`np.ndarray` of dtype `uint8`). -/
abbrev GradMap : Type := List (List ℕ)

/-- `numpy`-style `.min()` over a flat list of values (the list is nonempty in
every use; the `[]` case is arbitrary). -/
def listMin : List ℚ → ℚ
  | [] => 0
  | x :: xs => xs.foldl min x

/-- `numpy`-style `.max()` over a flat list of values. -/
def listMax : List ℚ → ℚ
  | [] => 0
  | x :: xs => xs.foldl max x

/-! ## The Grad-CAM numerical core (`_compute_gradcam`, lines 48-60)

`weights = gradients.mean(dim=(2, 3), keepdim=True)`
`cam = (weights * activations).sum(dim=1, keepdim=True)`
`cam = torch.relu(cam)`
`cam -= cam.min()`
`if cam.max() > 0: cam /= cam.max()`
`cam_np = (cam.squeeze().numpy() * 255).astype(np.uint8)`
-/

/-- `gradients.mean(dim=(2,3))` for one channel: the mean over both spatial
dimensions (sum of all entries divided by their count). -/
def spatial_mean (ch : Grid) : ℚ :=
  ch.flatten.sum / (ch.flatten.length : ℚ)

/-- Elementwise sum of two grids of equal shape (`torch` broadcasting sum). -/
def addGrid (x y : Grid) : Grid :=
  List.zipWith (List.zipWith (· + ·)) x y

/-- `(weights * activations).sum(dim=1)`: each activation channel scaled by
the spatial mean of the corresponding gradient channel, summed over
channels.  Channels are paired positionally, as the equal-shape tensors of
the source are. -/
def camGrid (acts grads : Tensor3) : Grid :=
  match List.zipWith (fun a g => a.map (fun row => row.map (fun v => spatial_mean g * v))) acts grads with
  | [] => []
  | c :: cs => cs.foldl addGrid c

/-- `torch.relu`: clip negatives to zero, elementwise. -/
def reluGrid (g : Grid) : Grid :=
  g.map (fun row => row.map (fun v => max 0 v))

/-- The normalization of lines 54-56: subtract the global minimum, then (the
maximum being re-read after the subtraction, as the in-place `cam -= ...`
does) divide by the maximum only when it is positive. -/
def normalizeGrid (cam : Grid) : Grid :=
  let m := listMin cam.flatten
  let shifted := cam.map (fun row => row.map (fun v => v - m))
  let M := listMax shifted.flatten
  if 0 < M then shifted.map (fun row => row.map (fun v => v / M)) else shifted

/-- `(x * 255).astype(np.uint8)`: scale to `[0, 255]` and truncate to an
integer (exact for the values in `[0, 1]` produced by the normalization). -/
def quantize (x : ℚ) : ℕ :=
  Int.toNat ⌊x * 255⌋

/-- Lines 48-60 of `_compute_gradcam` as a function of the hook-captured
activation and gradient tensors: weights, weighted combination, rectify,
normalize, scale and quantize. -/
def gradcamCore (acts grads : Tensor3) : GradMap :=
  (normalizeGrid (reluGrid (camGrid acts grads))).map (fun row => row.map quantize)

/-! ## The radial placeholder (`_compute_gradcam` lines 62-70,
`generate_gradcam_heatmap` lines 83-92)

`grid_x, grid_y = np.meshgrid(np.linspace(-1, 1, w), np.linspace(-1, 1, h))`
`radius = np.sqrt(grid_x ** 2 + grid_y ** 2)`
`heat = np.clip(1.0 - radius, 0.0, 1.0)`
`return (heat * 255).astype(np.uint8)`
-/

/-- `np.linspace(-1, 1, n)` at index `k`: `n` evenly spaced points from `-1`
to `1` inclusive; for `n = 1` numpy returns the single point `-1`. -/
def lin (n k : ℕ) : ℚ :=
  if n ≤ 1 then -1 else -1 + 2 * k / ((n : ℚ) - 1)

/-- Least `m ≥ start` with `t ≤ m ^ 2`, searched with explicit fuel (returns
`start + fuel` when the fuel runs out).  This is the integer form of a
ceiling of a square root, used to evaluate the placeholder exactly. -/
def leastGE (t : ℚ) : ℕ → ℕ → ℕ
  | 0, start => start
  | fuel + 1, start => if t ≤ (start : ℚ) ^ 2 then start else leastGE t fuel (start + 1)

/-- The placeholder's quantized pixel value as a function of the squared
radius `s = x² + y²`: exactly `⌊255 * clip(1 - √s, 0, 1)⌋`.  Since `√s` is
irrational in general this is evaluated as `255 - ⌈255·√s⌉` with the ceiling
computed through `leastGE` on squares (`⌈255√s⌉` is the least `m` with
`m² ≥ 65025·s`); theorem `placeVal_eq_floor_clip` below proves the identity
with the real-number formula of the source. -/
def placeVal (s : ℚ) : ℕ :=
  if 1 ≤ s then 0 else 255 - leastGE (65025 * s) 256 0

/-- The radial placeholder heatmap of spatial size `h × w`:
`clip(1 - sqrt(x² + y²), 0, 1)` scaled to `[0, 255]`, with `x` (resp. `y`)
running over `np.linspace(-1, 1, w)` (resp. `h`). -/
def placeholderMap (h w : ℕ) : GradMap :=
  (List.range h).map (fun i => (List.range w).map (fun j => placeVal (lin w j ^ 2 + lin h i ^ 2)))

/-! ## The classifier, layers and the engine (`_find_last_conv_layer`,
`_compute_gradcam` control flow, `generate_gradcam_heatmap`) -/

/-- A layer of the classifier, as seen by `model.modules()`: the only
distinction the source inspects is `isinstance(module, torch.nn.Conv2d)`. -/
inductive Layer : Type
  | conv2d (outChannels kernel : ℕ)
  | linear (features : ℕ)
  | relu
  | pool
  deriving DecidableEq

/-- The `isinstance(module, torch.nn.Conv2d)` test. -/
def Layer.isConv2d : Layer → Bool
  | .conv2d _ _ => true
  | _ => false

/-- `_find_last_conv_layer` (lines 9-14): iterate over the modules in their
defined order, keeping the last `Conv2d` seen. -/
def find_last_conv_layer (modules : List Layer) : Option Layer :=
  modules.foldl (fun last_conv m => if m.isConv2d then some m else last_conv) none

/-- The preprocessed input tensor: a shape `[b, c, h, w]` (the placeholder
branch unpacks exactly these four dimensions) and the underlying values. -/
structure InputTensor : Type where
  b : ℕ
  c : ℕ
  h : ℕ
  w : ℕ
  data : ℕ → ℕ → ℕ → ℕ → ℚ

/-- The classifier.  Its forward/backward pass is an external collaborator
(PyTorch autograd), modelled abstractly:
* `layers` is the `model.modules()` sequence;
* `capture input ti tl` is the outcome of the instrumented region of
  `_compute_gradcam` (zero_grad, forward, target selection, backward, the
  hook captures and the assert of line 46) with the hooks on target layer
  `tl`: either the captured activation and gradient tensors, or `.error ()`
  when any exception is raised in that region;
* `paramGrads` / `paramGradsOnError` are the gradients the backward pass
  leaves in the classifier's parameters on the two outcomes — they depend
  only on the call's immutable arguments, never on hidden mutable state. -/
structure Classifier : Type where
  layers : List Layer
  capture : InputTensor → Option ℕ → Layer → Except Unit (Tensor3 × Tensor3)
  paramGrads : InputTensor → Option ℕ → List ℚ
  paramGradsOnError : InputTensor → Option ℕ → Option (List ℚ)

/-- The mutable per-classifier state an attribution call touches: the set of
registered hook handles (with a counter issuing fresh handle ids) and the
accumulated parameter-gradient buffers (`None` after
`zero_grad(set_to_none=True)`). -/
structure EngineState : Type where
  nextHandle : ℕ
  hooks : List ℕ
  gradBuf : Option (List ℚ)

/-- `_compute_gradcam` (lines 17-73) as explicit state passing: register the
forward and backward hooks, run the instrumented region (`try`), on success
build the Grad-CAM map from the captured tensors, on any exception build the
radial placeholder from the input tensor's spatial dimensions (`except`),
and in both cases remove both hook handles before returning (`finally`). -/
def compute_gradcam (model : Classifier) (input_tensor : InputTensor)
    (target_index : Option ℕ) (target_layer : Layer) (s : EngineState) :
    GradMap × EngineState :=
  let handle_fwd := s.nextHandle
  let handle_bwd := s.nextHandle + 1
  let registered := s.hooks ++ [handle_fwd, handle_bwd]
  match model.capture input_tensor target_index target_layer with
  | .ok ag =>
      (gradcamCore ag.1 ag.2,
       { nextHandle := s.nextHandle + 2,
         hooks := (registered.erase handle_fwd).erase handle_bwd,
         gradBuf := some (model.paramGrads input_tensor target_index) })
  | .error _ =>
      (placeholderMap input_tensor.h input_tensor.w,
       { nextHandle := s.nextHandle + 2,
         hooks := (registered.erase handle_fwd).erase handle_bwd,
         gradBuf := model.paramGradsOnError input_tensor target_index })

/-- `generate_gradcam_heatmap` (lines 76-92): when the model is a
`torch.nn.Module` and has a `Conv2d` layer, run Grad-CAM targeting the last
one; otherwise return the radial placeholder sized to the original PIL
image (`pil_image.size` is `(width, height)`). -/
def generate_gradcam_heatmap (model_is_module : Bool) (model : Classifier)
    (input_tensor : InputTensor) (pil_width pil_height : ℕ) (s : EngineState) :
    GradMap :=
  if model_is_module then
    match find_last_conv_layer model.layers with
    | some target_layer => (compute_gradcam model input_tensor none target_layer s).1
    | none => placeholderMap pil_height pil_width
  else placeholderMap pil_height pil_width

/-! ## The compositor (`colorize_heatmap`, `overlay_heatmap_on_image`)

`rgb = np.array(pil_image.convert("RGB"))`
`bgr = cv2.cvtColor(rgb, cv2.COLOR_RGB2BGR)`
`heatmap_resized = cv2.resize(heatmap_bgr, (bgr.shape[1], bgr.shape[0]))`
`overlay = cv2.addWeighted(bgr, 1.0, heatmap_resized, alpha, 0)`
-/

/-- A 3-channel image: rows of pixels, a pixel being an ordered triple of
8-bit channel values. -/
abbrev Image : Type := List (List (ℕ × ℕ × ℕ))

/-- Number of rows (`shape[0]`). -/
def imgH (img : Image) : ℕ := img.length

/-- Number of columns (`shape[1]`, read off the first row; `np.array` images
are rectangular). -/
def imgW (img : Image) : ℕ := (img.getD 0 []).length

/-- `cv2.cvtColor(_, COLOR_RGB2BGR)`: swap the first and third channel of
every pixel. -/
def rgb_to_bgr (img : Image) : Image :=
  img.map (fun row => row.map (fun p => (p.2.2, p.2.1, p.1)))

/-- `saturate_cast<uchar>` of an integer: clamp into `[0, 255]`. -/
def satur (z : ℤ) : ℕ :=
  Int.toNat (min z 255)

/-- Round a rational to the nearest integer (half up; OpenCV rounds halves
to even, but no property below evaluates the blend or the interpolation at
a half, so the two agree on everything proved here). -/
def roundq (q : ℚ) : ℤ :=
  ⌊q + 1 / 2⌋

/-- Pixel lookup with out-of-range default, used with in-range indices or
under `cv2`'s replicated-border clamping. -/
def getPix (img : Image) (i j : ℕ) : ℕ × ℕ × ℕ :=
  (img.getD i []).getD j (0, 0, 0)

/-- Clamp an integer source coordinate into `[0, n - 1]` (replicated border). -/
def clampIdx (z : ℤ) (n : ℕ) : ℕ :=
  Int.toNat (min (max z 0) ((n : ℤ) - 1))

/-- The source coordinate `cv2.resize` samples for destination index `d`:
`(d + 0.5) · src/dst − 0.5` (exact rational form of INTER_LINEAR's mapping). -/
def srcCoord (d srcN dstN : ℕ) : ℚ :=
  ((d : ℚ) + 1 / 2) * (srcN : ℚ) / (dstN : ℚ) - 1 / 2

/-- Bilinear sample of `img` at real source position `(y, x)` with clamped
borders, per channel, rounded and saturated to 8 bits (the exact-arithmetic
form of `cv2.resize`'s INTER_LINEAR kernel). -/
def bilinear (img : Image) (y x : ℚ) : ℕ × ℕ × ℕ :=
  let y0 : ℤ := ⌊y⌋
  let x0 : ℤ := ⌊x⌋
  let fy : ℚ := y - y0
  let fx : ℚ := x - x0
  let p00 := getPix img (clampIdx y0 (imgH img)) (clampIdx x0 (imgW img))
  let p01 := getPix img (clampIdx y0 (imgH img)) (clampIdx (x0 + 1) (imgW img))
  let p10 := getPix img (clampIdx (y0 + 1) (imgH img)) (clampIdx x0 (imgW img))
  let p11 := getPix img (clampIdx (y0 + 1) (imgH img)) (clampIdx (x0 + 1) (imgW img))
  let ch := fun (f : ℕ × ℕ × ℕ → ℕ) =>
    satur (roundq ((1 - fy) * ((1 - fx) * (f p00 : ℚ) + fx * (f p01 : ℚ)) +
      fy * ((1 - fx) * (f p10 : ℚ) + fx * (f p11 : ℚ))))
  (ch (fun p => p.1), ch (fun p => p.2.1), ch (fun p => p.2.2))

/-- `cv2.resize(src, (dstW, dstH))`: an array of exactly `dstH × dstW`
pixels, each bilinearly sampled from the source. -/
def cvResize (src : Image) (dstW dstH : ℕ) : Image :=
  (List.range dstH).map (fun i =>
    (List.range dstW).map (fun j =>
      bilinear src (srcCoord i (imgH src) dstH) (srcCoord j (imgW src) dstW)))

/-- `cv2.addWeighted(src1, 1.0, src2, alpha, 0)` elementwise on equal-shape
arrays (the only way `overlay_heatmap_on_image` calls it): per channel
`saturate(round(v1 + alpha * v2))`. -/
def cvAddWeighted (src1 src2 : Image) (alpha : ℚ) : Image :=
  List.zipWith
    (fun r1 r2 => List.zipWith
      (fun (p : ℕ × ℕ × ℕ) (q : ℕ × ℕ × ℕ) =>
        (satur (roundq ((p.1 : ℚ) + alpha * (q.1 : ℚ))),
         satur (roundq ((p.2.1 : ℚ) + alpha * (q.2.1 : ℚ))),
         satur (roundq ((p.2.2 : ℚ) + alpha * (q.2.2 : ℚ)))))
      r1 r2)
    src1 src2

/-- `overlay_heatmap_on_image` (lines 102-111): convert the original to BGR,
resize the colored heatmap to the original's dimensions, and blend with
weights `1.0` and `alpha`. -/
def overlay_heatmap_on_image (pil_image : Image) (heatmap_bgr : Image) (alpha : ℚ) : Image :=
  let bgr := rgb_to_bgr pil_image
  let heatmap_resized := cvResize heatmap_bgr (imgW bgr) (imgH bgr)
  cvAddWeighted bgr heatmap_resized alpha

/-- `colorize_heatmap` (lines 95-99): `cv2.applyColorMap(_, COLORMAP_JET)`
applies a fixed 256-entry lookup table pixelwise; the table itself lives in
OpenCV, so it is a parameter here. -/
def colorize_heatmap (jet : ℕ → ℕ × ℕ × ℕ) (heatmap_gray : GradMap) : Image :=
  heatmap_gray.map (fun row => row.map jet)

/-- The compositor contract of the specification (`overlay`): colorize the
grayscale map, then overlay it on the original at opacity `alpha`. -/
def overlayFull (jet : ℕ → ℕ × ℕ × ℕ) (pil_image : Image) (heatmap_gray : GradMap) (alpha : ℚ) : Image :=
  overlay_heatmap_on_image pil_image (colorize_heatmap jet heatmap_gray) alpha


/-- Accessing a pixel of a quantized map with out-of-range default `0`. -/
def getP (g : GradMap) (i j : ℕ) : ℕ :=
  (g.getD i []).getD j 0

/-- A 2-D array has `H` rows, each of length `W`. -/
def gridShape {α : Type} (g : List (List α)) (H W : ℕ) : Prop :=
  g.length = H ∧ ∀ row ∈ g, row.length = W

/-- A 3-D tensor has `C` channels of spatial shape `H × W`. -/
def shapeOK (t : Tensor3) (C H W : ℕ) : Prop :=
  t.length = C ∧ ∀ ch ∈ t, gridShape ch H W

/-! ## Concrete fixtures used to exercise the theorems on closed inputs -/

/-- A classifier whose instrumented region always raises. -/
def errCls : Classifier :=
  ⟨[Layer.conv2d 8 3], fun _ _ _ => .error (), fun _ _ => [], fun _ _ => none⟩

/-- A classifier whose instrumented region captures a `1 × 1 × 1` activation
and gradient. -/
def okCls : Classifier :=
  ⟨[Layer.conv2d 1 1], fun _ _ _ => .ok ([[[1]]], [[[1]]]), fun _ _ => [0], fun _ _ => none⟩

/-- A classifier with two `Conv2d` layers among others. -/
def twoConvCls : Classifier :=
  ⟨[Layer.conv2d 1 3, Layer.relu, Layer.conv2d 2 3, Layer.linear 10],
   fun _ _ _ => .error (), fun _ _ => [], fun _ _ => none⟩

/-- A classifier with no `Conv2d` layer at all. -/
def noConvCls : Classifier :=
  ⟨[Layer.linear 128, Layer.relu, Layer.linear 2],
   fun _ _ _ => .error (), fun _ _ => [], fun _ _ => none⟩

/-- A concrete `1 × 3 × 2 × 3` input tensor. -/
def inp0 : InputTensor :=
  ⟨1, 3, 2, 3, fun _ _ _ _ => 0⟩

/-- The pristine engine state: no hooks registered, gradients cleared. -/
def st0 : EngineState :=
  ⟨0, [], none⟩

/-! ## Helper lemmas: list minima and maxima -/

lemma foldl_min_mem (xs : List ℚ) (x : ℚ) : xs.foldl min x ∈ x :: xs := by
  induction xs generalizing x with
  | nil => simp
  | cons y ys ih =>
      rw [List.foldl_cons]
      rcases List.mem_cons.1 (ih (min x y)) with h' | h'
      · rw [h']
        rcases min_choice x y with hm | hm
        · rw [hm]; exact List.mem_cons_self x _
        · rw [hm]; exact List.mem_cons.2 (Or.inr (List.mem_cons_self y ys))
      · exact List.mem_cons.2 (Or.inr (List.mem_cons.2 (Or.inr h')))

lemma foldl_min_le_init (xs : List ℚ) (x : ℚ) : xs.foldl min x ≤ x := by
  induction xs generalizing x with
  | nil => exact le_refl x
  | cons y ys ih =>
      rw [List.foldl_cons]
      exact le_trans (ih (min x y)) (min_le_left x y)

lemma foldl_min_le_mem (xs : List ℚ) (x a : ℚ) (ha : a ∈ xs) : xs.foldl min x ≤ a := by
  induction xs generalizing x with
  | nil => cases ha
  | cons y ys ih =>
      rw [List.foldl_cons]
      rcases List.mem_cons.1 ha with h' | h'
      · rw [h']
        exact le_trans (foldl_min_le_init ys (min x y)) (min_le_right x y)
      · first
        | exact ih h' (min x y)
        | exact ih (min x y) h'

lemma foldl_max_mem (xs : List ℚ) (x : ℚ) : xs.foldl max x ∈ x :: xs := by
  induction xs generalizing x with
  | nil => simp
  | cons y ys ih =>
      rw [List.foldl_cons]
      rcases List.mem_cons.1 (ih (max x y)) with h' | h'
      · rw [h']
        rcases max_choice x y with hm | hm
        · rw [hm]; exact List.mem_cons_self x _
        · rw [hm]; exact List.mem_cons.2 (Or.inr (List.mem_cons_self y ys))
      · exact List.mem_cons.2 (Or.inr (List.mem_cons.2 (Or.inr h')))

lemma le_foldl_max_init (xs : List ℚ) (x : ℚ) : x ≤ xs.foldl max x := by
  induction xs generalizing x with
  | nil => exact le_refl x
  | cons y ys ih =>
      rw [List.foldl_cons]
      exact le_trans (le_max_left x y) (ih (max x y))

lemma le_foldl_max_mem (xs : List ℚ) (x a : ℚ) (ha : a ∈ xs) : a ≤ xs.foldl max x := by
  induction xs generalizing x with
  | nil => cases ha
  | cons y ys ih =>
      rw [List.foldl_cons]
      rcases List.mem_cons.1 ha with h' | h'
      · rw [h']
        exact le_trans (le_max_right x y) (le_foldl_max_init ys (max x y))
      · first
        | exact ih h' (max x y)
        | exact ih (max x y) h'

lemma listMin_mem {l : List ℚ} (h : l ≠ []) : listMin l ∈ l := by
  cases l with
  | nil => exact absurd rfl h
  | cons x xs => exact foldl_min_mem xs x

lemma listMin_le {l : List ℚ} {a : ℚ} (ha : a ∈ l) : listMin l ≤ a := by
  cases l with
  | nil => cases ha
  | cons x xs =>
      rcases List.mem_cons.1 ha with h' | h'
      · exact h' ▸ foldl_min_le_init xs x
      · exact foldl_min_le_mem xs x a h'

lemma listMax_mem {l : List ℚ} (h : l ≠ []) : listMax l ∈ l := by
  cases l with
  | nil => exact absurd rfl h
  | cons x xs => exact foldl_max_mem xs x

lemma le_listMax {l : List ℚ} {a : ℚ} (ha : a ∈ l) : a ≤ listMax l := by
  cases l with
  | nil => cases ha
  | cons x xs =>
      rcases List.mem_cons.1 ha with h' | h'
      · exact h' ▸ le_foldl_max_init xs x
      · exact le_foldl_max_mem xs x a h'

/-! ## Helper lemmas: the exact ceiling-of-square-root search -/

lemma leastGE_ge (t : ℚ) (fuel start : ℕ) : start ≤ leastGE t fuel start := by
  induction fuel generalizing start with
  | zero => simp [leastGE]
  | succ n ih =>
      rw [leastGE]
      split
      · exact le_refl start
      · exact le_trans (Nat.le_succ start) (ih (start + 1))

lemma leastGE_sat (t : ℚ) (fuel start : ℕ)
    (h : ∃ k, start ≤ k ∧ k < start + fuel ∧ t ≤ (k : ℚ) ^ 2) :
    t ≤ ((leastGE t fuel start : ℕ) : ℚ) ^ 2 := by
  induction fuel generalizing start with
  | zero =>
      obtain ⟨k, hk1, hk2, _⟩ := h
      omega
  | succ n ih =>
      rw [leastGE]
      split
      · assumption
      · rename_i hnot
        apply ih
        obtain ⟨k, hk1, hk2, hk3⟩ := h
        refine ⟨k, ?_, by omega, hk3⟩
        rcases Nat.lt_or_ge start k with hlt | hge
        · omega
        · have hks : k = start := by omega
          exact absurd (hks ▸ hk3) hnot

lemma leastGE_min (t : ℚ) (fuel start : ℕ) :
    ∀ j, start ≤ j → j < leastGE t fuel start → ¬ t ≤ (j : ℚ) ^ 2 := by
  induction fuel generalizing start with
  | zero =>
      intro j hj1 hj2
      rw [leastGE] at hj2
      omega
  | succ n ih =>
      intro j hj1 hj2
      rw [leastGE] at hj2
      by_cases hc : t ≤ (start : ℚ) ^ 2
      · rw [if_pos hc] at hj2; omega
      · rw [if_neg hc] at hj2
        rcases Nat.lt_or_ge j (start + 1) with hlt | hge
        · have hj : j = start := by omega
          exact hj ▸ hc
        · exact ih (start + 1) j hge hj2

lemma leastGE_mono {t₁ t₂ : ℚ} (h : t₁ ≤ t₂) (fuel start : ℕ) :
    leastGE t₁ fuel start ≤ leastGE t₂ fuel start := by
  induction fuel generalizing start with
  | zero => simp [leastGE]
  | succ n ih =>
      rw [leastGE, leastGE]
      by_cases hc : t₂ ≤ (start : ℚ) ^ 2
      · rw [if_pos hc, if_pos (le_trans h hc)]
      · rw [if_neg hc]
        split
        · exact le_trans (Nat.le_succ start) (leastGE_ge t₂ n (start + 1))
        · exact ih (start + 1)

/-! ## Helper lemmas: the placeholder pixel value -/

lemma placeVal_le (s : ℚ) : placeVal s ≤ 255 := by
  rw [placeVal]
  split
  · exact Nat.zero_le 255
  · exact Nat.sub_le 255 _

lemma placeVal_anti {s₁ s₂ : ℚ} (h : s₁ ≤ s₂) : placeVal s₂ ≤ placeVal s₁ := by
  rw [placeVal, placeVal]
  by_cases h2 : 1 ≤ s₂
  · rw [if_pos h2]; exact Nat.zero_le _
  · rw [if_neg h2, if_neg (fun h1 => h2 (le_trans h1 h))]
    exact Nat.sub_le_sub_left (leastGE_mono (by linarith) 256 0) 255

lemma placeVal_zero : placeVal 0 = 255 := by
  have h : leastGE (65025 * 0) 256 0 = 0 := by
    rw [show (256 : ℕ) = 255 + 1 from rfl, leastGE, if_pos (by norm_num)]
  rw [placeVal, if_neg (by norm_num), h]

/-- The computable `placeVal` agrees with the source's real-number formula:
for a squared radius `s ≥ 0` it is exactly
`⌊255 * clip(1 - sqrt s, 0, 1)⌋` (the `(heat * 255).astype(np.uint8)` of the
fallback, `heat = np.clip(1.0 - np.sqrt(s), 0.0, 1.0)`). -/
theorem placeVal_eq_floor_clip (s : ℚ) (_hs : 0 ≤ s) :
    (placeVal s : ℤ) = ⌊(255 : ℝ) * max 0 (min 1 (1 - Real.sqrt (s : ℝ)))⌋ := by
  by_cases h1 : 1 ≤ s
  · have hsq : (1 : ℝ) ≤ Real.sqrt (s : ℝ) := Real.one_le_sqrt.2 (by exact_mod_cast h1)
    have hmin : min 1 (1 - Real.sqrt (s : ℝ)) = 1 - Real.sqrt (s : ℝ) :=
      min_eq_right (by linarith)
    have hmax : max 0 (1 - Real.sqrt (s : ℝ)) = 0 := max_eq_left (by linarith)
    rw [placeVal, if_pos h1, hmin, hmax]
    norm_num
  · push_neg at h1
    set c := leastGE (65025 * s) 256 0 with hc
    have hsat : (65025 : ℚ) * s ≤ ((c : ℕ) : ℚ) ^ 2 := by
      apply leastGE_sat
      exact ⟨255, Nat.zero_le 255, by norm_num, by push_cast; nlinarith⟩
    have hminlt : ∀ j : ℕ, j < c → ((j : ℚ) ^ 2 < 65025 * s) := by
      intro j hj
      have := leastGE_min (65025 * s) 256 0 j (Nat.zero_le j) hj
      linarith [lt_of_not_le this]
    have hc255 : c ≤ 255 := by
      by_contra hgt
      push_neg at hgt
      have := hminlt 255 hgt
      push_cast at this
      nlinarith
    have hsqle : Real.sqrt (s : ℝ) ≤ 1 := Real.sqrt_le_one.2 (by exact_mod_cast le_of_lt h1)
    have hmin' : min 1 (1 - Real.sqrt (s : ℝ)) = 1 - Real.sqrt (s : ℝ) :=
      min_eq_right (by linarith [Real.sqrt_nonneg (s : ℝ)])
    have hmax' : max 0 (1 - Real.sqrt (s : ℝ)) = 1 - Real.sqrt (s : ℝ) :=
      max_eq_right (by linarith)
    rw [placeVal, if_neg (not_le.2 h1), hmin', hmax']
    have hcastup : (65025 : ℝ) * (s : ℝ) ≤ ((c : ℝ)) ^ 2 := by exact_mod_cast hsat
    -- `255 √s ≤ c`
    have hup : (255 : ℝ) * Real.sqrt (s : ℝ) ≤ (c : ℝ) := by
      have h1' : Real.sqrt (s : ℝ) ≤ Real.sqrt (((c : ℝ) / 255) ^ 2) := by
        apply Real.sqrt_le_sqrt
        nlinarith
      rw [Real.sqrt_sq (by positivity)] at h1'
      nlinarith
    -- `c - 1 < 255 √s`
    have hlow : ((c : ℝ)) - 1 < 255 * Real.sqrt (s : ℝ) := by
      rcases Nat.eq_zero_or_pos c with h0 | hpos
      · rw [h0]
        have := Real.sqrt_nonneg (s : ℝ)
        push_cast
        nlinarith
      · have hk : ((c - 1 : ℕ) : ℚ) ^ 2 < 65025 * s := hminlt (c - 1) (by omega)
        have hkr : (((c : ℝ)) - 1) ^ 2 < 65025 * (s : ℝ) := by
          have h' : (((c - 1 : ℕ) : ℝ)) ^ 2 < 65025 * (s : ℝ) := by exact_mod_cast hk
          rwa [Nat.cast_sub hpos, Nat.cast_one] at h'
        have hc1 : (1 : ℝ) ≤ (c : ℝ) := by exact_mod_cast hpos
        have hlt : ((c : ℝ) - 1) / 255 < Real.sqrt (s : ℝ) := by
          rw [Real.lt_sqrt (by nlinarith)]
          nlinarith
        nlinarith
    rw [eq_comm, Int.floor_eq_iff]
    constructor
    · push_cast [Nat.cast_sub hc255]
      nlinarith
    · push_cast [Nat.cast_sub hc255]
      nlinarith

/-! ## Helper lemmas: `np.linspace` and placeholder pixels -/

lemma lin_one : lin 1 0 = -1 := by
  rw [lin, if_pos (le_refl 1)]

lemma lin_odd (b : ℕ) (hb : 1 ≤ b) (j : ℕ) : lin (2 * b + 1) j = ((j : ℚ) - b) / b := by
  rw [lin, if_neg (by omega)]
  have hb' : ((b : ℚ)) ≠ 0 := Nat.cast_ne_zero.2 (by omega)
  push_cast
  field_simp
  ring

lemma lin_center (b : ℕ) (hb : 1 ≤ b) : lin (2 * b + 1) b = 0 := by
  rw [lin_odd b hb b]
  simp

lemma placeholderMap_get (h w i j : ℕ) (hi : i < h) (hj : j < w) :
    getP (placeholderMap h w) i j = placeVal (lin w j ^ 2 + lin h i ^ 2) := by
  rw [getP, placeholderMap, List.getD_eq_getElem?_getD _ i, List.getElem?_map,
    List.getElem?_range hi, Option.map_some', Option.getD_some,
    List.getD_eq_getElem?_getD _ j, List.getElem?_map, List.getElem?_range hj,
    Option.map_some', Option.getD_some]

/-! ## Helper lemmas: locating the last convolution layer -/

lemma getLast?_cons_or {α : Type} (a : α) (l : List α) :
    (a :: l).getLast? = l.getLast?.or (some a) := by
  induction l generalizing a with
  | nil => rfl
  | cons b bs ih =>
      rw [List.getLast?_cons_cons, ih b]
      cases bs.getLast? <;> rfl

lemma foldl_find_conv (l : List Layer) (acc : Option Layer) :
    l.foldl (fun last_conv m => if m.isConv2d then some m else last_conv) acc
      = ((l.filter (fun m => m.isConv2d)).getLast?).or acc := by
  induction l generalizing acc with
  | nil => rfl
  | cons m ms ih =>
      rw [List.foldl_cons]
      by_cases hm : m.isConv2d
      · rw [if_pos hm, ih, List.filter_cons_of_pos hm, getLast?_cons_or]
        cases (ms.filter (fun m => m.isConv2d)).getLast? <;> rfl
      · rw [if_neg hm, ih, List.filter_cons_of_neg (by simpa using hm)]

/-- `_find_last_conv_layer` returns exactly the last `Conv2d` of the module
sequence (the last element of the order-preserving `Conv2d` subsequence). -/
lemma find_last_conv_eq (l : List Layer) :
    find_last_conv_layer l = (l.filter (fun m => m.isConv2d)).getLast? := by
  rw [find_last_conv_layer, foldl_find_conv, Option.or_none]

/-! ## Helper lemmas: shapes through the Grad-CAM pipeline -/

lemma mem_zipWith {α β γ : Type} {f : α → β → γ} :
    ∀ {l₁ : List α} {l₂ : List β} {c : γ}, c ∈ List.zipWith f l₁ l₂ →
      ∃ x ∈ l₁, ∃ y ∈ l₂, c = f x y := by
  intro l₁
  induction l₁ with
  | nil => intro l₂ c hc; simp at hc
  | cons x xs ih =>
      intro l₂ c hc
      cases l₂ with
      | nil => simp at hc
      | cons y ys =>
          rw [List.zipWith_cons_cons] at hc
          rcases List.mem_cons.1 hc with h | h
          · exact ⟨x, List.mem_cons_self x xs, y, List.mem_cons_self y ys, h⟩
          · obtain ⟨x', hx', y', hy', he⟩ := ih h
            exact ⟨x', List.mem_cons.2 (Or.inr hx'), y', List.mem_cons.2 (Or.inr hy'), he⟩

lemma mapmap_gridShape {α β : Type} (f : α → β) {g : List (List α)} {H W : ℕ}
    (hg : gridShape g H W) : gridShape (g.map (fun row => row.map f)) H W := by
  obtain ⟨h1, h2⟩ := hg
  refine ⟨by rw [List.length_map, h1], ?_⟩
  intro row hrow
  obtain ⟨r, hr, hre⟩ := List.mem_map.1 hrow
  rw [← hre, List.length_map]
  exact h2 r hr

lemma addGrid_shape {x y : Grid} {H W : ℕ}
    (hx : gridShape x H W) (hy : gridShape y H W) : gridShape (addGrid x y) H W := by
  obtain ⟨hx1, hx2⟩ := hx
  obtain ⟨hy1, hy2⟩ := hy
  refine ⟨by rw [addGrid, List.length_zipWith, hx1, hy1, min_self], ?_⟩
  intro row hrow
  obtain ⟨r1, hr1, r2, hr2, hre⟩ := mem_zipWith hrow
  rw [hre, List.length_zipWith, hx2 r1 hr1, hy2 r2 hr2, min_self]

lemma foldl_addGrid_shape {H W : ℕ} (cs : List Grid) (c : Grid)
    (hc : gridShape c H W) (hcs : ∀ z ∈ cs, gridShape z H W) :
    gridShape (cs.foldl addGrid c) H W := by
  induction cs generalizing c with
  | nil => exact hc
  | cons z zs ih =>
      rw [List.foldl_cons]
      exact ih (addGrid c z) (addGrid_shape hc (hcs z (List.mem_cons_self z zs)))
        (fun z' hz' => hcs z' (List.mem_cons.2 (Or.inr hz')))

lemma camGrid_shape {acts grads : Tensor3} {C H W : ℕ}
    (ha : shapeOK acts C H W) (hg : shapeOK grads C H W) (hC : 0 < C) :
    gridShape (camGrid acts grads) H W := by
  obtain ⟨ha1, ha2⟩ := ha
  obtain ⟨hg1, hg2⟩ := hg
  cases acts with
  | nil => rw [List.length_nil] at ha1; omega
  | cons ach as =>
      cases grads with
      | nil => rw [List.length_nil] at hg1; omega
      | cons gch gs =>
          rw [camGrid, List.zipWith_cons_cons]
          apply foldl_addGrid_shape
          · exact mapmap_gridShape _ (ha2 ach (List.mem_cons_self ach as))
          · intro z hz
            obtain ⟨a', ha', g', _, hze⟩ := mem_zipWith hz
            rw [hze]
            exact mapmap_gridShape _ (ha2 a' (List.mem_cons.2 (Or.inr ha')))

lemma reluGrid_shape {g : Grid} {H W : ℕ} (hg : gridShape g H W) :
    gridShape (reluGrid g) H W :=
  mapmap_gridShape _ hg

lemma normalizeGrid_shape {g : Grid} {H W : ℕ} (hg : gridShape g H W) :
    gridShape (normalizeGrid g) H W := by
  rw [normalizeGrid]
  split
  · exact mapmap_gridShape _ (mapmap_gridShape _ hg)
  · exact mapmap_gridShape _ hg

/-! ## Helper lemmas: values through the normalization -/

lemma flatten_mapmap {α β : Type} (f : α → β) (g : List (List α)) :
    (g.map (fun row => row.map f)).flatten = g.flatten.map f :=
  (List.map_flatten f g).symm

lemma gridShape_flatten_ne_nil {α : Type} {g : List (List α)} {H W : ℕ}
    (hg : gridShape g H W) (hH : 0 < H) (hW : 0 < W) : g.flatten ≠ [] := by
  obtain ⟨h1, h2⟩ := hg
  cases g with
  | nil => rw [List.length_nil] at h1; omega
  | cons r rs =>
      rw [List.flatten_cons]
      have hr : r.length = W := h2 r (List.mem_cons_self r rs)
      cases r with
      | nil => rw [List.length_nil] at hr; omega
      | cons v vs => simp

/-- Every value the normalization emits lies in `[0, 1]`: the minimum is
subtracted (so everything is nonnegative), and division happens only by a
positive maximum taken after the subtraction. -/
lemma normalizeGrid_mem_unit (r : Grid) :
    ∀ v ∈ (normalizeGrid r).flatten, 0 ≤ v ∧ v ≤ 1 := by
  intro v hv
  rw [normalizeGrid] at hv
  set m := listMin r.flatten with hm
  set shifted := r.map (fun row => row.map (fun x => x - m)) with hsh
  set M := listMax shifted.flatten with hM
  have hshflat : shifted.flatten = r.flatten.map (fun x => x - m) := flatten_mapmap _ r
  by_cases hpos : 0 < M
  · rw [if_pos hpos] at hv
    rw [flatten_mapmap] at hv
    obtain ⟨v', hv', hve⟩ := List.mem_map.1 hv
    rw [hshflat] at hv'
    obtain ⟨e, he, hee⟩ := List.mem_map.1 hv'
    have h0 : 0 ≤ v' := by
      rw [← hee]
      have := listMin_le he
      linarith
    have hle : v' ≤ M := by
      apply le_listMax
      rw [hshflat]
      rw [← hee] at hv' ⊢
      exact hv'
    constructor
    · rw [← hve]; positivity
    · rw [← hve]
      exact div_le_one_of_le₀ hle (le_of_lt hpos)
  · rw [if_neg hpos] at hv
    push_neg at hpos
    rw [hshflat] at hv
    obtain ⟨e, he, hee⟩ := List.mem_map.1 hv
    have h0 : 0 ≤ v := by
      rw [← hee]
      have := listMin_le he
      linarith
    refine ⟨h0, ?_⟩
    have hvM : v ≤ M := by
      apply le_listMax
      rw [hshflat, ← hee]
      exact List.mem_map_of_mem _ he
    linarith

lemma quantize_zero : quantize 0 = 0 := by
  rw [quantize]
  norm_num

lemma quantize_one : quantize 1 = 255 := by
  rw [quantize]
  norm_num
  rfl

lemma quantize_le_255 {x : ℚ} (hx1 : x ≤ 1) : quantize x ≤ 255 := by
  rw [quantize]
  have h : ⌊x * 255⌋ ≤ 255 := by
    have : x * 255 ≤ 255 := by nlinarith
    calc ⌊x * 255⌋ ≤ ⌊(255 : ℚ)⌋ := Int.floor_le_floor this
    _ = 255 := by norm_num
  omega

/-! ## Helper lemmas: the two paths of `_compute_gradcam` -/

lemma compute_gradcam_ok {model : Classifier} {input : InputTensor}
    {ti : Option ℕ} {tl : Layer} (s : EngineState) {acts grads : Tensor3}
    (h : model.capture input ti tl = .ok (acts, grads)) :
    (compute_gradcam model input ti tl s).1 = gradcamCore acts grads := by
  rw [compute_gradcam, h]

lemma compute_gradcam_err {model : Classifier} {input : InputTensor}
    {ti : Option ℕ} {tl : Layer} (s : EngineState)
    (h : model.capture input ti tl = .error ()) :
    (compute_gradcam model input ti tl s).1 = placeholderMap input.h input.w := by
  rw [compute_gradcam, h]

/-! ## Claims -/

/-- C1: for every classifier, input tensor and optional target index, if any
exception is raised during the attribution steps, `compute_gradcam` does not
propagate it but returns the deterministic radial placeholder computed
purely from the input tensor's spatial dimensions: each pixel is
`⌊255 * clip(1 - sqrt(x² + y²), 0, 1)⌋` with `x, y` ranging linearly over
`[-1, 1]` across width and height. -/
theorem c1_exception_fallback_radial (model : Classifier) (input : InputTensor)
    (target_index : Option ℕ) (target_layer : Layer) (s : EngineState)
    (h : model.capture input target_index target_layer = .error ()) :
    (compute_gradcam model input target_index target_layer s).1
      = placeholderMap input.h input.w
    ∧ ∀ i j, i < input.h → j < input.w →
        ((getP (compute_gradcam model input target_index target_layer s).1 i j : ℤ)
          = ⌊(255 : ℝ) * max 0 (min 1 (1 - Real.sqrt
              ((lin input.w j : ℝ) ^ 2 + (lin input.h i : ℝ) ^ 2)))⌋) := by
  have h1 := compute_gradcam_err s h
  refine ⟨h1, ?_⟩
  intro i j hi hj
  rw [h1, placeholderMap_get _ _ _ _ hi hj,
    placeVal_eq_floor_clip _ (by positivity)]
  congr 2
  push_cast
  ring

theorem c1_witness :
    errCls.capture inp0 none (Layer.conv2d 8 3) = .error ()
    ∧ (compute_gradcam errCls inp0 none (Layer.conv2d 8 3) st0).1
        = placeholderMap 2 3 :=
  ⟨rfl, (c1_exception_fallback_radial errCls inp0 none (Layer.conv2d 8 3) st0 rfl).1⟩

/-- C3: for a single one-channel `7 × 7` convolution whose captured
activation is all ones and whose gradient is uniformly `0.5`: the channel
weight (spatial mean of the gradient) is `0.5`, the weighted combination is
uniformly `0.5`, rectification leaves it unchanged, and after the
min-subtract / max-divide normalization the quantized output is uniformly
`0`. -/
theorem c3_end_to_end_uniform_half :
    spatial_mean (List.replicate 7 (List.replicate 7 (1 / 2 : ℚ))) = 1 / 2
    ∧ camGrid [List.replicate 7 (List.replicate 7 (1 : ℚ))]
        [List.replicate 7 (List.replicate 7 (1 / 2 : ℚ))]
        = List.replicate 7 (List.replicate 7 (1 / 2 : ℚ))
    ∧ reluGrid (List.replicate 7 (List.replicate 7 (1 / 2 : ℚ)))
        = List.replicate 7 (List.replicate 7 (1 / 2 : ℚ))
    ∧ gradcamCore [List.replicate 7 (List.replicate 7 (1 : ℚ))]
        [List.replicate 7 (List.replicate 7 (1 / 2 : ℚ))]
        = List.replicate 7 (List.replicate 7 0) := by
  refine ⟨?_, ?_, ?_, ?_⟩ <;>
    norm_num [spatial_mean, camGrid, reluGrid, gradcamCore, normalizeGrid,
      listMin, listMax, quantize, List.replicate]

/-- C4: both hook handles registered on the target layer are removed before
`compute_gradcam` returns, on the success path and on the exception path
alike, leaving the classifier's hook set exactly as it was. -/
theorem c4_hooks_removed_on_all_paths (model : Classifier) (input : InputTensor)
    (target_index : Option ℕ) (target_layer : Layer) (s : EngineState)
    (hfresh : ∀ x ∈ s.hooks, x < s.nextHandle) :
    (compute_gradcam model input target_index target_layer s).2.hooks = s.hooks := by
  have h1 : s.nextHandle ∉ s.hooks := fun hmem => lt_irrefl _ (hfresh _ hmem)
  have h2 : s.nextHandle + 1 ∉ s.hooks := fun hmem => by
    have := hfresh _ hmem; omega
  have hkey : ((s.hooks ++ [s.nextHandle, s.nextHandle + 1]).erase
      s.nextHandle).erase (s.nextHandle + 1) = s.hooks := by
    rw [List.erase_append_right _ h1, List.erase_cons_head,
      List.erase_append_right _ h2, List.erase_cons_head, List.append_nil]
  cases hcap : model.capture input target_index target_layer with
  | ok ag =>
      rw [compute_gradcam, hcap]
      exact hkey
  | error e =>
      rw [compute_gradcam, hcap]
      exact hkey

theorem c4_witness :
    (∀ x ∈ st0.hooks, x < st0.nextHandle)
    ∧ (compute_gradcam errCls inp0 none (Layer.conv2d 8 3) st0).2.hooks = st0.hooks :=
  ⟨fun x hx => absurd hx (List.not_mem_nil x),
   c4_hooks_removed_on_all_paths errCls inp0 none (Layer.conv2d 8 3) st0
     (fun x hx => absurd hx (List.not_mem_nil x))⟩

/-- C6: the target layer of an attribution call is the last layer matching
`Conv2d` in the classifier's module sequence; when no such layer exists the
Grad-CAM path is not taken and the caller falls back to the placeholder. -/
theorem c6_target_is_last_conv (model : Classifier) (mim : Bool)
    (input : InputTensor) (pw ph : ℕ) (s : EngineState) :
    find_last_conv_layer model.layers
      = (model.layers.filter (fun m => m.isConv2d)).getLast?
    ∧ ((model.layers.filter (fun m => m.isConv2d)).getLast? = none →
        generate_gradcam_heatmap mim model input pw ph s = placeholderMap ph pw)
    ∧ (∀ tl, mim = true →
        (model.layers.filter (fun m => m.isConv2d)).getLast? = some tl →
        generate_gradcam_heatmap mim model input pw ph s
          = (compute_gradcam model input none tl s).1) := by
  refine ⟨find_last_conv_eq model.layers, ?_, ?_⟩
  · intro hnone
    cases mim with
    | false => rw [generate_gradcam_heatmap, if_neg (by simp)]
    | true =>
        rw [generate_gradcam_heatmap, if_pos rfl, find_last_conv_eq, hnone]
  · intro tl hmim hsome
    subst hmim
    rw [generate_gradcam_heatmap, if_pos rfl, find_last_conv_eq, hsome]

theorem c6_witness :
    (twoConvCls.layers.filter (fun m => m.isConv2d)).getLast?
      = some (Layer.conv2d 2 3)
    ∧ generate_gradcam_heatmap true twoConvCls inp0 4 5 st0
        = (compute_gradcam twoConvCls inp0 none (Layer.conv2d 2 3) st0).1 :=
  ⟨by decide,
   (c6_target_is_last_conv twoConvCls true inp0 4 5 st0).2.2
     (Layer.conv2d 2 3) rfl (by decide)⟩

/-- C9: two consecutive calls of `compute_gradcam` with the same classifier,
tensor and target index yield bit-identical output maps — the second call
starting from whatever engine state the first one left behind. -/
theorem c9_deterministic_repeat (model : Classifier) (input : InputTensor)
    (target_index : Option ℕ) (target_layer : Layer) (s : EngineState) :
    (compute_gradcam model input target_index target_layer
        ((compute_gradcam model input target_index target_layer s).2)).1
      = (compute_gradcam model input target_index target_layer s).1 := by
  cases hcap : model.capture input target_index target_layer with
  | ok ag => simp only [compute_gradcam, hcap]
  | error e => simp only [compute_gradcam, hcap]

/-- C2: on the successful attribution path (the hooks captured an activation
and a gradient of channel count `C` and spatial shape `H × W`, all
positive), the returned map is a single-channel `H × W` array — the target
layer's activation-map dimensions — and every value lies in `[0, 255]`
(values are naturals, so only the upper bound is stated). -/
theorem c2_shape_and_range (model : Classifier) (input : InputTensor)
    (target_index : Option ℕ) (target_layer : Layer) (s : EngineState)
    (acts grads : Tensor3) (C H W : ℕ)
    (hcap : model.capture input target_index target_layer = .ok (acts, grads))
    (ha : shapeOK acts C H W) (hg : shapeOK grads C H W)
    (hC : 0 < C) (_hH : 0 < H) (_hW : 0 < W) :
    (compute_gradcam model input target_index target_layer s).1.length = H
    ∧ (∀ row ∈ (compute_gradcam model input target_index target_layer s).1,
        row.length = W)
    ∧ ∀ row ∈ (compute_gradcam model input target_index target_layer s).1,
        ∀ v ∈ row, v ≤ 255 := by
  rw [compute_gradcam_ok s hcap]
  have hshape : gridShape (normalizeGrid (reluGrid (camGrid acts grads))) H W :=
    normalizeGrid_shape (reluGrid_shape (camGrid_shape ha hg hC))
  have hfinal : gridShape (gradcamCore acts grads) H W := by
    rw [gradcamCore]
    exact mapmap_gridShape quantize hshape
  refine ⟨hfinal.1, hfinal.2, ?_⟩
  intro row hrow v hv
  have hvf : v ∈ (gradcamCore acts grads).flatten :=
    List.mem_flatten.2 ⟨row, hrow, hv⟩
  rw [gradcamCore, flatten_mapmap] at hvf
  obtain ⟨q, hq, hqe⟩ := List.mem_map.1 hvf
  rw [← hqe]
  exact quantize_le_255 (normalizeGrid_mem_unit _ q hq).2

theorem c2_witness :
    (okCls.capture inp0 none (Layer.conv2d 1 1) = .ok ([[[1]]], [[[1]]])
      ∧ shapeOK [[[1]]] 1 1 1)
    ∧ ((compute_gradcam okCls inp0 none (Layer.conv2d 1 1) st0).1.length = 1
       ∧ ∀ row ∈ (compute_gradcam okCls inp0 none (Layer.conv2d 1 1) st0).1,
           ∀ v ∈ row, v ≤ 255) := by
  have hs : shapeOK [[[(1 : ℚ)]]] 1 1 1 := by
    refine ⟨rfl, ?_⟩
    intro ch hch
    simp only [List.mem_singleton] at hch
    subst hch
    exact ⟨rfl, by intro r hr; simp only [List.mem_singleton] at hr; simp [hr]⟩
  have h := c2_shape_and_range okCls inp0 none (Layer.conv2d 1 1) st0
    [[[1]]] [[[1]]] 1 1 1 rfl hs hs (by omega) (by omega) (by omega)
  exact ⟨⟨rfl, hs⟩, h.1, h.2.2⟩

/-- C10 counterexample: with a single-channel `2 × 2` all-ones activation and
a uniform `0.5` gradient, the rectified map is uniformly `0.5` — not
uniformly zero — yet the output contains no `255` at all (it is uniformly
`0`), so the claim that a not-uniformly-zero rectified map forces the output
to attain `255` is false. -/
theorem c10_counterexample_uniform_map :
    (∀ v ∈ (reluGrid (camGrid [[[(1 : ℚ), 1], [1, 1]]]
        [[[(1 / 2 : ℚ), 1 / 2], [1 / 2, 1 / 2]]])).flatten, v ≠ 0)
    ∧ ∀ v ∈ (gradcamCore [[[(1 : ℚ), 1], [1, 1]]]
        [[[(1 / 2 : ℚ), 1 / 2], [1 / 2, 1 / 2]]]).flatten, v ≠ 255 := by
  norm_num [reluGrid, camGrid, gradcamCore, normalizeGrid, spatial_mean,
    listMin, listMax, quantize]

/-- C10 amended: on the successful path the output always attains `0`
somewhere; and whenever the rectified map is not uniformly constant (its
minimum is strictly below its maximum — rather than merely not uniformly
zero, as the original claim had it) the output also attains `255`. -/
theorem c10_full_range_amended (acts grads : Tensor3)
    (hne : (reluGrid (camGrid acts grads)).flatten ≠ []) :
    0 ∈ (gradcamCore acts grads).flatten
    ∧ (listMin (reluGrid (camGrid acts grads)).flatten
        < listMax (reluGrid (camGrid acts grads)).flatten →
       255 ∈ (gradcamCore acts grads).flatten) := by
  set R := reluGrid (camGrid acts grads) with hR
  set F := R.flatten with hF
  set m := listMin F with hm
  have hgc : (gradcamCore acts grads).flatten
      = (normalizeGrid R).flatten.map quantize := by
    rw [gradcamCore, flatten_mapmap]
  have hshflat : (R.map (fun row => row.map (fun x => x - m))).flatten
      = F.map (fun x => x - m) := flatten_mapmap _ R
  have hmmem : m ∈ F := listMin_mem hne
  have h0shift : (0 : ℚ) ∈ F.map (fun x => x - m) := by
    have := List.mem_map_of_mem (fun x => x - m) hmmem
    simpa using this
  constructor
  · rw [hgc, normalizeGrid]
    simp only [← hF, ← hm, hshflat]
    by_cases hpos : 0 < listMax (F.map (fun x => x - m))
    · rw [if_pos hpos, flatten_mapmap, hshflat]
      have h1 : (0 : ℚ) ∈ (F.map (fun x => x - m)).map
          (fun v => v / listMax (F.map (fun x => x - m))) := by
        have := List.mem_map_of_mem
          (fun v => v / listMax (F.map (fun x => x - m))) h0shift
        simpa using this
      have := List.mem_map_of_mem quantize h1
      rw [quantize_zero] at this
      exact this
    · rw [if_neg hpos, hshflat]
      have := List.mem_map_of_mem quantize h0shift
      rw [quantize_zero] at this
      exact this
  · intro hlt
    have hMax : listMax F ∈ F := listMax_mem hne
    have hMshift : listMax F - m ∈ F.map (fun x => x - m) :=
      List.mem_map_of_mem (fun x => x - m) hMax
    have hmapne : F.map (fun x => x - m) ≠ [] := by
      simp [hne]
    have hMeq : listMax (F.map (fun x => x - m)) = listMax F - m := by
      apply le_antisymm
      · obtain ⟨e, he, hee⟩ := List.mem_map.1 (listMax_mem hmapne)
        rw [← hee]
        have := le_listMax he
        linarith
      · exact le_listMax hMshift
    have hpos : 0 < listMax (F.map (fun x => x - m)) := by
      rw [hMeq]
      have : m < listMax F := hlt
      linarith
    rw [hgc, normalizeGrid]
    simp only [← hF, ← hm, hshflat]
    rw [if_pos hpos, flatten_mapmap, hshflat]
    have h1 : (1 : ℚ) ∈ (F.map (fun x => x - m)).map
        (fun v => v / listMax (F.map (fun x => x - m))) := by
      have h2 := List.mem_map_of_mem
        (fun v => v / listMax (F.map (fun x => x - m))) hMshift
      rw [← hMeq] at h2
      rw [show (1 : ℚ) = listMax (F.map (fun x => x - m))
          / listMax (F.map (fun x => x - m)) from
        (div_self (ne_of_gt hpos)).symm]
      exact h2
    have := List.mem_map_of_mem quantize h1
    rw [quantize_one] at this
    exact this

theorem c10_witness :
    ((reluGrid (camGrid [[[(0 : ℚ), 1]]] [[[(1 : ℚ), 1]]])).flatten ≠ []
      ∧ listMin (reluGrid (camGrid [[[(0 : ℚ), 1]]] [[[(1 : ℚ), 1]]])).flatten
          < listMax (reluGrid (camGrid [[[(0 : ℚ), 1]]] [[[(1 : ℚ), 1]]])).flatten)
    ∧ (0 ∈ (gradcamCore [[[(0 : ℚ), 1]]] [[[(1 : ℚ), 1]]]).flatten
       ∧ 255 ∈ (gradcamCore [[[(0 : ℚ), 1]]] [[[(1 : ℚ), 1]]]).flatten) := by
  have hne : (reluGrid (camGrid [[[(0 : ℚ), 1]]] [[[(1 : ℚ), 1]]])).flatten ≠ [] := by
    norm_num [reluGrid, camGrid, spatial_mean]
    simp
  have hlt : listMin (reluGrid (camGrid [[[(0 : ℚ), 1]]] [[[(1 : ℚ), 1]]])).flatten
      < listMax (reluGrid (camGrid [[[(0 : ℚ), 1]]] [[[(1 : ℚ), 1]]])).flatten := by
    norm_num [reluGrid, camGrid, spatial_mean, listMin, listMax]
  exact ⟨⟨hne, hlt⟩, (c10_full_range_amended _ _ hne).1,
    (c10_full_range_amended _ _ hne).2 hlt⟩

/-- C5 counterexample: for a `1 × 1` original image and a classifier with no
convolution layer, the fallback path does return the placeholder, but its
single pixel — the exact center — has value `0`, not `255`: numpy's
`linspace(-1, 1, 1)` is `[-1]`, so the center sits at radius `√2` and the
clipped height is `0`. -/
theorem c5_counterexample_one_by_one :
    generate_gradcam_heatmap true noConvCls inp0 1 1 st0 = [[0]]
    ∧ getP (generate_gradcam_heatmap true noConvCls inp0 1 1 st0) 0 0 ≠ 255 := by
  have hfind : find_last_conv_layer noConvCls.layers = none := by decide
  have h : generate_gradcam_heatmap true noConvCls inp0 1 1 st0 = [[0]] := by
    rw [generate_gradcam_heatmap, if_pos rfl, hfind]
    have hpv : placeVal (lin 1 0 ^ 2 + lin 1 0 ^ 2) = 0 := by
      rw [lin_one, placeVal, if_pos (by norm_num)]
    norm_num [placeholderMap, List.range_succ, hpv]
  refine ⟨h, ?_⟩
  rw [h]
  decide

lemma lin_sq_mono (b : ℕ) (t₁ t₂ d : ℤ) (j₁ j₂ : ℕ)
    (h₁ : (j₁ : ℤ) = b + t₁ * d) (h₂ : (j₂ : ℤ) = b + t₂ * d)
    (hj₁ : j₁ < 2 * b + 1) (hj₂ : j₂ < 2 * b + 1)
    (ht : |t₁| ≤ |t₂|) :
    lin (2 * b + 1) j₁ ^ 2 ≤ lin (2 * b + 1) j₂ ^ 2 := by
  rcases Nat.eq_zero_or_pos b with hb0 | hbpos
  · subst hb0
    have hj1 : j₁ = 0 := by omega
    have hj2 : j₂ = 0 := by omega
    rw [hj1, hj2]
  · rw [lin_odd b hbpos j₁, lin_odd b hbpos j₂]
    have e₁ : (j₁ : ℚ) = (b : ℚ) + (t₁ : ℚ) * (d : ℚ) := by exact_mod_cast h₁
    have e₂ : (j₂ : ℚ) = (b : ℚ) + (t₂ : ℚ) * (d : ℚ) := by exact_mod_cast h₂
    have hu₁ : (j₁ : ℚ) - b = (t₁ : ℚ) * d := by rw [e₁]; ring
    have hu₂ : (j₂ : ℚ) - b = (t₂ : ℚ) * d := by rw [e₂]; ring
    rw [hu₁, hu₂, div_pow, div_pow]
    have habs : ((|t₁| : ℤ) : ℚ) ≤ ((|t₂| : ℤ) : ℚ) := by exact_mod_cast ht
    have ht2 : (t₁ : ℚ) ^ 2 ≤ (t₂ : ℚ) ^ 2 := by
      have h1 : ((|t₁| : ℤ) : ℚ) = |(t₁ : ℚ)| := by push_cast; rfl
      have h2 : ((|t₂| : ℤ) : ℚ) = |(t₂ : ℚ)| := by push_cast; rfl
      rw [h1, h2] at habs
      calc (t₁ : ℚ) ^ 2 = |(t₁ : ℚ)| ^ 2 := (sq_abs _).symm
      _ ≤ |(t₂ : ℚ)| ^ 2 := by
          exact pow_le_pow_left₀ (abs_nonneg _) habs 2
      _ = (t₂ : ℚ) ^ 2 := sq_abs _
    have hnum : ((t₁ : ℚ) * d) ^ 2 ≤ ((t₂ : ℚ) * d) ^ 2 := by
      nlinarith [sq_nonneg (d : ℚ), ht2]
    have hbq : (0 : ℚ) < ((b : ℚ)) ^ 2 := by
      have : (0 : ℚ) < (b : ℚ) := by exact_mod_cast hbpos
      positivity
    exact div_le_div_of_nonneg_right hnum hbq.le

/-- C5 amended: for a classifier with no convolution layer the call returns
the radial placeholder; for odd spatial dimensions of at least 3 (so that an
exact center pixel exists and numpy's `linspace` places a sample at `0`) the
center pixel is `255`, and along any lattice line through the center the
values are non-increasing in the distance from the center.  (The original
claim is false for degenerate sizes: at `1 × 1` the single — center — pixel
is `0`.) -/
theorem c5_no_conv_placeholder_amended (mim : Bool) (model : Classifier)
    (input : InputTensor) (pw ph : ℕ) (s : EngineState)
    (hnoconv : model.layers.filter (fun m => m.isConv2d) = []) :
    generate_gradcam_heatmap mim model input pw ph s = placeholderMap ph pw
    ∧ (∀ a b : ℕ, ph = 2 * a + 1 → pw = 2 * b + 1 → 1 ≤ a → 1 ≤ b →
        getP (generate_gradcam_heatmap mim model input pw ph s) a b = 255)
    ∧ (∀ a b : ℕ, ∀ t₁ t₂ dy dx : ℤ, ∀ i₁ j₁ i₂ j₂ : ℕ,
        ph = 2 * a + 1 → pw = 2 * b + 1 →
        (i₁ : ℤ) = a + t₁ * dy → (j₁ : ℤ) = b + t₁ * dx →
        (i₂ : ℤ) = a + t₂ * dy → (j₂ : ℤ) = b + t₂ * dx →
        i₁ < ph → j₁ < pw → i₂ < ph → j₂ < pw →
        |t₁| ≤ |t₂| →
        getP (generate_gradcam_heatmap mim model input pw ph s) i₂ j₂
          ≤ getP (generate_gradcam_heatmap mim model input pw ph s) i₁ j₁) := by
  have hplace : generate_gradcam_heatmap mim model input pw ph s
      = placeholderMap ph pw := by
    cases mim with
    | false => rw [generate_gradcam_heatmap, if_neg (by simp)]
    | true =>
        rw [generate_gradcam_heatmap, if_pos rfl, find_last_conv_eq, hnoconv]
        rfl
  refine ⟨hplace, ?_, ?_⟩
  · intro a b hph hpw ha hb
    subst hph
    subst hpw
    rw [hplace, placeholderMap_get _ _ _ _ (by omega) (by omega),
      lin_center b hb, lin_center a ha]
    norm_num [placeVal_zero]
  · intro a b t₁ t₂ dy dx i₁ j₁ i₂ j₂ hph hpw hi₁ hj₁ hi₂ hj₂
    intro hri₁ hrj₁ hri₂ hrj₂ ht
    subst hph
    subst hpw
    rw [hplace, placeholderMap_get _ _ _ _ hri₁ hrj₁,
      placeholderMap_get _ _ _ _ hri₂ hrj₂]
    apply placeVal_anti
    have hx := lin_sq_mono b t₁ t₂ dx j₁ j₂ hj₁ hj₂ hrj₁ hrj₂ ht
    have hy := lin_sq_mono a t₁ t₂ dy i₁ i₂ hi₁ hi₂ hri₁ hri₂ ht
    linarith

theorem c5_witness :
    noConvCls.layers.filter (fun m => m.isConv2d) = []
    ∧ getP (generate_gradcam_heatmap true noConvCls inp0 3 3 st0) 1 1 = 255 :=
  ⟨by decide,
   (c5_no_conv_placeholder_amended true noConvCls inp0 3 3 st0 (by decide)).2.1
     1 1 rfl rfl (le_refl 1) (le_refl 1)⟩

/-! ## Helper lemmas: the compositor -/

lemma length_rgb_to_bgr (img : Image) : (rgb_to_bgr img).length = img.length :=
  List.length_map img _

lemma imgW_rgb_to_bgr (img : Image) : imgW (rgb_to_bgr img) = imgW img := by
  cases img with
  | nil => rfl
  | cons r rs => simp [imgW, rgb_to_bgr]

lemma rgb_to_bgr_rows (img : Image) {w : ℕ} (h : ∀ r ∈ img, r.length = w) :
    ∀ r ∈ rgb_to_bgr img, r.length = w := by
  intro r hr
  obtain ⟨r0, hr0, hre⟩ := List.mem_map.1 hr
  rw [← hre, List.length_map]
  exact h r0 hr0

lemma rgb_to_bgr_bounds (img : Image)
    (hb : ∀ r ∈ img, ∀ p ∈ r, p.1 ≤ 255 ∧ p.2.1 ≤ 255 ∧ p.2.2 ≤ 255) :
    ∀ r ∈ rgb_to_bgr img, ∀ p ∈ r, p.1 ≤ 255 ∧ p.2.1 ≤ 255 ∧ p.2.2 ≤ 255 := by
  intro r hr p hp
  obtain ⟨r0, hr0, hre⟩ := List.mem_map.1 hr
  rw [← hre] at hp
  obtain ⟨p0, hp0, hpe⟩ := List.mem_map.1 hp
  obtain ⟨h1, h2, h3⟩ := hb r0 hr0 p0 hp0
  rw [← hpe]
  exact ⟨h3, h2, h1⟩

lemma rgb_to_bgr_involutive (img : Image) : rgb_to_bgr (rgb_to_bgr img) = img := by
  rw [rgb_to_bgr, rgb_to_bgr, List.map_map]
  have hrow : ∀ r : List (ℕ × ℕ × ℕ),
      ((fun (row : List (ℕ × ℕ × ℕ)) => row.map (fun p => (p.2.2, p.2.1, p.1))) ∘
       (fun (row : List (ℕ × ℕ × ℕ)) => row.map (fun p => (p.2.2, p.2.1, p.1)))) r = r := by
    intro r
    simp only [Function.comp_apply, List.map_map]
    have hp : ((fun (p : ℕ × ℕ × ℕ) => (p.2.2, p.2.1, p.1)) ∘
        (fun (p : ℕ × ℕ × ℕ) => (p.2.2, p.2.1, p.1))) = id := by
      funext p
      rcases p with ⟨a, b, c⟩
      rfl
    rw [hp, List.map_id]
  rw [funext hrow]
  simp

lemma cvResize_length (src : Image) (dstW dstH : ℕ) :
    (cvResize src dstW dstH).length = dstH := by
  rw [cvResize, List.length_map, List.length_range]

lemma cvResize_rows (src : Image) (dstW dstH : ℕ) :
    ∀ r ∈ cvResize src dstW dstH, r.length = dstW := by
  intro r hr
  obtain ⟨i, _, hre⟩ := List.mem_map.1 hr
  rw [← hre, List.length_map, List.length_range]

lemma blend_zero_pix (p q : ℕ × ℕ × ℕ)
    (hb : p.1 ≤ 255 ∧ p.2.1 ≤ 255 ∧ p.2.2 ≤ 255) :
    (satur (roundq ((p.1 : ℚ) + 0 * (q.1 : ℚ))),
     satur (roundq ((p.2.1 : ℚ) + 0 * (q.2.1 : ℚ))),
     satur (roundq ((p.2.2 : ℚ) + 0 * (q.2.2 : ℚ)))) = p := by
  have key : ∀ v u : ℕ, v ≤ 255 → satur (roundq ((v : ℚ) + 0 * (u : ℚ))) = v := by
    intro v u hv
    have hf : roundq ((v : ℚ) + 0 * (u : ℚ)) = (v : ℤ) := by
      rw [roundq]
      apply Int.floor_eq_iff.2
      constructor
      · push_cast; linarith
      · push_cast; linarith
    rw [hf, satur, min_eq_left (by exact_mod_cast hv : (v : ℤ) ≤ 255)]
    simp
  rcases p with ⟨a, b, c⟩
  obtain ⟨h1, h2, h3⟩ := hb
  show (satur (roundq ((a : ℚ) + 0 * (q.1 : ℚ))),
        satur (roundq ((b : ℚ) + 0 * (q.2.1 : ℚ))),
        satur (roundq ((c : ℚ) + 0 * (q.2.2 : ℚ)))) = (a, b, c)
  rw [key a q.1 h1, key b q.2.1 h2, key c q.2.2 h3]

lemma blend_zero_row (r1 r2 : List (ℕ × ℕ × ℕ)) (hl : r1.length ≤ r2.length)
    (hb : ∀ p ∈ r1, p.1 ≤ 255 ∧ p.2.1 ≤ 255 ∧ p.2.2 ≤ 255) :
    List.zipWith (fun (p : ℕ × ℕ × ℕ) (q : ℕ × ℕ × ℕ) =>
        (satur (roundq ((p.1 : ℚ) + 0 * (q.1 : ℚ))),
         satur (roundq ((p.2.1 : ℚ) + 0 * (q.2.1 : ℚ))),
         satur (roundq ((p.2.2 : ℚ) + 0 * (q.2.2 : ℚ))))) r1 r2 = r1 := by
  induction r1 generalizing r2 with
  | nil => simp
  | cons p ps ih =>
      cases r2 with
      | nil => simp at hl
      | cons q qs =>
          rw [List.zipWith_cons_cons,
            blend_zero_pix p q (hb p (List.mem_cons_self p ps)),
            ih qs (by simpa using hl)
              (fun p' hp' => hb p' (List.mem_cons.2 (Or.inr hp')))]

lemma cvAddWeighted_zero : ∀ (src1 src2 : Image) (w : ℕ),
    src1.length ≤ src2.length →
    (∀ r ∈ src1, r.length = w) → (∀ r ∈ src2, r.length = w) →
    (∀ r ∈ src1, ∀ p ∈ r, p.1 ≤ 255 ∧ p.2.1 ≤ 255 ∧ p.2.2 ≤ 255) →
    cvAddWeighted src1 src2 0 = src1
  | [], _, _, _, _, _, _ => by simp [cvAddWeighted]
  | r :: rs, [], w, hlen, _, _, _ => by simp at hlen
  | r :: rs, r2 :: rs2, w, hlen, h1, h2, hbnd => by
      have hrow := blend_zero_row r r2
        (by rw [h1 r (List.mem_cons_self r rs), h2 r2 (List.mem_cons_self r2 rs2)])
        (hbnd r (List.mem_cons_self r rs))
      have htail := cvAddWeighted_zero rs rs2 w (by simpa using hlen)
        (fun r' h' => h1 r' (List.mem_cons.2 (Or.inr h')))
        (fun r' h' => h2 r' (List.mem_cons.2 (Or.inr h')))
        (fun r' h' => hbnd r' (List.mem_cons.2 (Or.inr h')))
      show List.zipWith _ (r :: rs) (r2 :: rs2) = r :: rs
      rw [List.zipWith_cons_cons, hrow,
        show List.zipWith _ rs rs2 = cvAddWeighted rs rs2 0 from rfl, htail]

/-- C7: the overlay always has the ORIGINAL image's dimensions, whatever the
dimensions of the grayscale map — the colored map is resized to the
original, never the other way around. -/
theorem c7_overlay_dims (jet : ℕ → ℕ × ℕ × ℕ) (pil_image : Image)
    (heatmap_gray : GradMap) (alpha : ℚ)
    (hrect : ∀ row ∈ pil_image, row.length = imgW pil_image) :
    (overlayFull jet pil_image heatmap_gray alpha).length = imgH pil_image
    ∧ ∀ row ∈ overlayFull jet pil_image heatmap_gray alpha,
        row.length = imgW pil_image := by
  have hov : overlayFull jet pil_image heatmap_gray alpha
      = cvAddWeighted (rgb_to_bgr pil_image)
          (cvResize (colorize_heatmap jet heatmap_gray)
            (imgW (rgb_to_bgr pil_image)) (imgH (rgb_to_bgr pil_image))) alpha := rfl
  rw [hov]
  constructor
  · show (List.zipWith _ _ _).length = _
    rw [List.length_zipWith, cvResize_length]
    rw [show imgH (rgb_to_bgr pil_image) = pil_image.length from length_rgb_to_bgr pil_image]
    rw [length_rgb_to_bgr, min_self]
    rfl
  · intro row hrow
    obtain ⟨r1, hr1, r2, hr2, hre⟩ := mem_zipWith hrow
    rw [hre, List.length_zipWith]
    rw [rgb_to_bgr_rows pil_image hrect r1 hr1]
    rw [cvResize_rows _ _ _ r2 hr2, imgW_rgb_to_bgr, min_self]

theorem c7_witness :
    (∀ row ∈ ([[(1, 2, 3)]] : Image), row.length = imgW [[(1, 2, 3)]])
    ∧ (overlayFull (fun g => (g, 0, 0)) [[(1, 2, 3)]] [[128], [7]] (2 / 5)).length
        = imgH [[(1, 2, 3)]]
    ∧ ∀ row ∈ overlayFull (fun g => (g, 0, 0)) [[(1, 2, 3)]] [[128], [7]] (2 / 5),
        row.length = imgW [[(1, 2, 3)]] := by
  have hrect : ∀ row ∈ ([[(1, 2, 3)]] : Image), row.length = imgW [[(1, 2, 3)]] := by
    decide
  exact ⟨hrect, (c7_overlay_dims (fun g => (g, 0, 0)) _ _ _ hrect).1,
    (c7_overlay_dims (fun g => (g, 0, 0)) _ _ _ hrect).2⟩

/-- C8: with `alpha = 0` the blend contributes nothing: the overlay is the
BGR encoding of the original image, i.e. converted back to the original's
RGB channel order it is pixel-for-pixel the original. -/
theorem c8_alpha_zero_identity (jet : ℕ → ℕ × ℕ × ℕ) (pil_image : Image)
    (heatmap_gray : GradMap)
    (hrect : ∀ row ∈ pil_image, row.length = imgW pil_image)
    (hval : ∀ row ∈ pil_image, ∀ p ∈ row,
      p.1 ≤ 255 ∧ p.2.1 ≤ 255 ∧ p.2.2 ≤ 255) :
    overlayFull jet pil_image heatmap_gray 0 = rgb_to_bgr pil_image
    ∧ rgb_to_bgr (overlayFull jet pil_image heatmap_gray 0) = pil_image := by
  have hmain : overlayFull jet pil_image heatmap_gray 0 = rgb_to_bgr pil_image := by
    show cvAddWeighted (rgb_to_bgr pil_image)
        (cvResize (colorize_heatmap jet heatmap_gray)
          (imgW (rgb_to_bgr pil_image)) (imgH (rgb_to_bgr pil_image))) 0
      = rgb_to_bgr pil_image
    apply cvAddWeighted_zero _ _ (imgW pil_image)
    · rw [cvResize_length]
      exact le_of_eq rfl
    · exact rgb_to_bgr_rows pil_image hrect
    · intro r hr
      rw [cvResize_rows _ _ _ r hr, imgW_rgb_to_bgr]
    · exact rgb_to_bgr_bounds pil_image hval
  exact ⟨hmain, by rw [hmain, rgb_to_bgr_involutive]⟩

theorem c8_witness :
    ((∀ row ∈ ([[(10, 20, 30)]] : Image), row.length = imgW [[(10, 20, 30)]])
      ∧ ∀ row ∈ ([[(10, 20, 30)]] : Image), ∀ p ∈ row,
          p.1 ≤ 255 ∧ p.2.1 ≤ 255 ∧ p.2.2 ≤ 255)
    ∧ overlayFull (fun g => (g, g, g)) [[(10, 20, 30)]] [[255]] 0
        = [[(30, 20, 10)]] := by
  have h1 : ∀ row ∈ ([[(10, 20, 30)]] : Image), row.length = imgW [[(10, 20, 30)]] := by
    decide
  have h2 : ∀ row ∈ ([[(10, 20, 30)]] : Image), ∀ p ∈ row,
      p.1 ≤ 255 ∧ p.2.1 ≤ 255 ∧ p.2.2 ≤ 255 := by decide
  have h := (c8_alpha_zero_identity (fun g => (g, g, g)) [[(10, 20, 30)]] [[255]] h1 h2).1
  exact ⟨⟨h1, h2⟩, by rw [h]; rfl⟩
